import Mathlib

/-
Verification development for the windows-features repository (src/main.rs).

The core under study is the import-resolution engine:
  * build_feature_mappings : catalog -> index (qualified key -> feature set)
  * parse_namespace_and_item : raw import line -> (namespace path, item or wildcard)
  * attempt_fix_import : fallback reconciliation by item-name suffix
  * get_required_features : the aggregation loop over raw ripgrep lines

Rust data structures are embedded as follows: BTreeMap / BTreeSet become
strictly sorted association lists / strictly sorted duplicate-free lists over
String, ordered by the lexicographic order on the underlying character lists
(for UTF-8 this coincides with Rust's byte-lexicographic String order);
usize becomes Nat (with the 64-bit overflow bound where the source parses);
fallible code returns Option / Except.  I/O (file download, ripgrep
invocation, tracing diagnostics) is out of scope: functions are
parameterized by the data those collaborators supply.
-/

/-- Models Rust char::is_whitespace (the Unicode White_Space property),
used by str::trim. -/
def rustIsWhitespace (c : Char) : Bool :=
  let n := c.toNat
  (decide (9 ≤ n) && decide (n ≤ 13)) || n == 32 || n == 0x85 || n == 0xA0 ||
    n == 0x1680 || (decide (0x2000 ≤ n) && decide (n ≤ 0x200A)) ||
    n == 0x2028 || n == 0x2029 || n == 0x202F || n == 0x205F || n == 0x3000

/-- ASCII lower-casing of one character, as performed bytewise by Rust's
eq_ignore_ascii_case (non-ASCII characters are untouched). -/
def asciiLower (c : Char) : Char :=
  if 'A' ≤ c ∧ c ≤ 'Z' then Char.ofNat (c.toNat + 32) else c

/-- Models Rust str::eq_ignore_ascii_case (src/main.rs line 324). -/
def eqIgnoreAsciiCase (a b : String) : Bool :=
  a.data.map asciiLower == b.data.map asciiLower

/-- listIsPre pat l is true iff pat is a leading segment of l. -/
def listIsPre : List Char → List Char → Bool
  | [], _ => true
  | _ :: _, [] => false
  | p :: ps, c :: cs => p == c && listIsPre ps cs

/-- Models Rust str::starts_with(pat) (src/main.rs line 140); for UTF-8 the
byte-level check coincides with this character-level check. -/
def strStartsWith (s pat : String) : Bool := listIsPre pat.data s.data

/-- Models Rust str::split('.'): every occurrence of '.' separates parts,
so the result is always non-empty and its parts contain no '.'. -/
def splitDot : List Char → List (List Char)
  | [] => [[]]
  | c :: rest =>
    if c = '.' then [] :: splitDot rest
    else
      match splitDot rest with
      | [] => [[c]]
      | p :: ps => (c :: p) :: ps

/-- Models Rust str::split("::") (leftmost non-overlapping occurrences). -/
def splitColons : List Char → List (List Char)
  | [] => [[]]
  | ':' :: ':' :: rest => [] :: splitColons rest
  | c :: rest =>
    match splitColons rest with
    | [] => [[c]]
    | p :: ps => (c :: p) :: ps

/-- Models Rust slice::join(".") on strings (src/main.rs lines 299, 306). -/
def joinDot : List String → String
  | [] => ""
  | [s] => s
  | s :: rest => s ++ "." ++ joinDot rest

/-- Models Rust str::trim_end_matches(';') (src/main.rs line 290). -/
def trimEndSemis (s : String) : String :=
  String.mk ((s.data.reverse.dropWhile (fun c => c == ';')).reverse)

/-- Models Rust str::trim (src/main.rs line 290). -/
def rustTrim (s : String) : String :=
  String.mk (((s.data.dropWhile rustIsWhitespace).reverse.dropWhile
      rustIsWhitespace).reverse)

/-- Models Rust str::parse::<usize> on a 64-bit platform (src/main.rs
line 218): an optional leading '+', then one or more ASCII digits; fails on
anything else and on overflow past 2^64 - 1. -/
def parseUsize (s : String) : Option Nat :=
  let ds := match s.data with
            | '+' :: rest => rest
            | cs => cs
  if ds = [] then none
  else if ds.all (fun c => c.isDigit) then
    let v := ds.foldl (fun acc c => acc * 10 + (c.toNat - 48)) 0
    if v < 2 ^ 64 then some v else none
  else none

/-- Ordered duplicate-free insert; models BTreeSet<String>::insert. -/
def insertStr (x : String) : List String → List String
  | [] => [x]
  | y :: ys =>
    if x.data < y.data then x :: y :: ys
    else if x = y then y :: ys
    else y :: insertStr x ys

/-- Models BTreeSet<String>::extend: insert every element of xs into acc. -/
def extendStr (acc : List String) (xs : List String) : List String :=
  xs.foldl (fun a x => insertStr x a) acc

/-- Models BTreeMap<String, BTreeSet<String>>::get (src/main.rs line 121). -/
def mapGet (m : List (String × List String)) (k : String) : Option (List String) :=
  match m with
  | [] => none
  | (k2, v) :: rest => if k = k2 then some v else mapGet rest k

/-- Models the idiom map.entry(k).or_insert_with(BTreeSet::new).insert(v)
(src/main.rs lines 231-234), keeping keys strictly sorted. -/
def mapInsertFeature (k : String) (v : String) :
    List (String × List String) → List (String × List String)
  | [] => [(k, [v])]
  | (k2, vs) :: rest =>
    if k.data < k2.data then (k, [v]) :: (k2, vs) :: rest
    else if k = k2 then (k2, insertStr v vs) :: rest
    else (k2, vs) :: mapInsertFeature k v rest

/-- BTreeMap iteration well-formedness: keys strictly sorted, as holds for
the iteration order of any BTreeMap and for the output of the index build. -/
def IndexWF (m : List (String × List String)) : Prop :=
  List.Sorted (fun a b : String => a.data < b.data) (m.map Prod.fst)

/-- One record of the namespaces table of features.json (src/main.rs 31-35). -/
structure NamespaceEntry where
  name : String
  features : Option (List Nat)

/-- The deserialized features.json (src/main.rs 24-29).  The namespaces
field is a BTreeMap<String, Vec<NamespaceEntry>>, embedded as its (sorted)
iteration sequence of key-value pairs. -/
structure FeaturesFile where
  namespace_map : List String
  feature_map : List String
  namespaces : List (String × List NamespaceEntry)

/-- The inner loop body of build_feature_mappings over one catalog Entry
(src/main.rs lines 226-240): entries with an absent feature list, and
feature indices out of range for feature_map, contribute nothing (the
source logs a warning for the latter). -/
def processEntry (feature_map : List String) (ns : String)
    (acc : List (String × List String)) (entry : NamespaceEntry) :
    List (String × List String) :=
  let full_name := ns ++ "." ++ entry.name
  match entry.features with
  | none => acc
  | some feature_indexes =>
    feature_indexes.foldl (fun acc2 fi =>
      match feature_map[fi]? with
      | some feature_name => mapInsertFeature full_name feature_name acc2
      | none => acc2) acc

/-- The loop of build_feature_mappings over the namespaces map (src/main.rs
lines 217-241): a key that fails to parse as usize aborts with an error
(the source applies the ? operator); a parsed index out of range for
namespace_map is skipped with a warning and the loop continues. -/
def buildGo (namespace_map feature_map : List String) :
    List (String × List NamespaceEntry) → List (String × List String) →
    Except String (List (String × List String))
  | [], acc => .ok acc
  | (idx_str, entries) :: rest, acc =>
    match parseUsize idx_str with
    | none => .error "Invalid namespace index"
    | some idx =>
      match namespace_map[idx]? with
      | none => buildGo namespace_map feature_map rest acc
      | some ns =>
        buildGo namespace_map feature_map rest
          (entries.foldl (processEntry feature_map ns) acc)

/-- Models build_feature_mappings (src/main.rs lines 215-244). -/
def build_feature_mappings (features : FeaturesFile) :
    Except String (List (String × List String)) :=
  buildGo features.namespace_map features.feature_map features.namespaces []

/-- Models parse_import_line (src/main.rs lines 277-285): splitn(2, ':')
on a ripgrep output line; an input without ':' is a hard error. -/
def parse_import_line (line : String) : Except String (String × String) :=
  match line.data.span (fun c => !(c == ':')) with
  | (_, []) => .error ("Invalid import line format: " ++ line)
  | (fp, _ :: rest) => .ok (String.mk fp, String.mk rest)

/-- The token sequence of an import line: strip trailing ';' characters,
trim whitespace, split on "::" (src/main.rs lines 290-291). -/
def importTokens (import_line : String) : List String :=
  (splitColons (rustTrim (trimEndSemis import_line)).data).map String.mk

/-- Models parse_namespace_and_item (src/main.rs lines 289-309). -/
def parse_namespace_and_item (import_line : String) :
    Option (String × Option String) :=
  let parts := importTokens import_line
  if parts.length < 3 then none
  else
    match parts.getLast? with
    | none => none
    | some last =>
      if last = "*" then
        some ("Windows." ++ joinDot ((parts.drop 1).dropLast), none)
      else
        some ("Windows." ++ joinDot ((parts.drop 1).dropLast), some last)

/-- Models full_name.split('.').last() (src/main.rs lines 319 and 323). -/
def lastDotSeg (s : String) : Option String :=
  ((splitDot s.data).getLast?).map String.mk

/-- The scan loop of attempt_fix_import (src/main.rs lines 322-331),
returning the first matching map entry in BTreeMap iteration order.  The
none branch for lastDotSeg mirrors the ? operator inside the source loop. -/
def findFix (item_segment : String) :
    List (String × List String) → Option (String × List String)
  | [] => none
  | (existing_item, feats) :: rest =>
    match lastDotSeg existing_item with
    | none => none
    | some existing_segment =>
      if eqIgnoreAsciiCase existing_segment item_segment then
        some (existing_item, feats)
      else findFix item_segment rest

/-- attempt_fix_import (src/main.rs lines 312-334) including the matched
key: the source's warn! diagnostic (lines 325-328) is formatted from
full_name together with this matched key. -/
def attempt_fix_entry (item_to_features : List (String × List String))
    (full_name : String) : Option (String × List String) :=
  match lastDotSeg full_name with
  | none => none
  | some item_segment => findFix item_segment item_to_features

/-- Models attempt_fix_import (src/main.rs lines 312-334): the returned
feature set of the first key, in map order, whose item-name suffix equals
the suffix of full_name ignoring ASCII case. -/
def attempt_fix_import (item_to_features : List (String × List String))
    (full_name : String) : Option (List String) :=
  (attempt_fix_entry item_to_features full_name).map Prod.snd

/-- The per-reference branch of the loop of get_required_features
(src/main.rs lines 117-154): the feature contribution of one parsed
reference (a specific item, with exact lookup then fallback; or a
wildcard, unioning all keys with the namespace-dot pre-string). -/
def resolve_reference (m : List (String × List String))
    (r : String × Option String) : List String :=
  match r with
  | (ns, some item) =>
    let full_name := ns ++ "." ++ item
    match mapGet m full_name with
    | some features => features
    | none =>
      match attempt_fix_import m full_name with
      | some correct_feats => correct_feats
      | none => []
  | (ns, none) =>
    let ns_pfx := ns ++ "."
    m.foldl (fun acc kf =>
      if strStartsWith kf.1 ns_pfx then extendStr acc kf.2 else acc) []

/-- The feature contribution of one isolated import line (src/main.rs lines
117-160): a line that fails parse_namespace_and_item contributes nothing
(the source logs a warning and continues). -/
def resolveImport (m : List (String × List String)) (import_line : String) :
    List String :=
  match parse_namespace_and_item import_line with
  | some r => resolve_reference m r
  | none => []

/-- The loop of get_required_features (src/main.rs lines 115-161) with the
running accumulator made explicit: each ripgrep line is split at its first
':' (hard error if absent, via the ? operator), and the contribution of
the remaining import text is unioned into the accumulated feature set. -/
def getGo (m : List (String × List String)) :
    List String → List String → Except String (List String)
  | [], acc => .ok acc
  | imp :: rest, acc =>
    match parse_import_line imp with
    | .error e => .error e
    | .ok (_, import_line) =>
      getGo m rest (extendStr acc (resolveImport m import_line))

/-- Models get_required_features (src/main.rs lines 111-164), parameterized
by the already-built index (the source builds it from the downloaded
features.json, which is I/O and out of scope). -/
def get_required_features (m : List (String × List String))
    (raw_imports : List String) : Except String (List String) :=
  getGo m raw_imports []


/-- The feature contribution of one raw ripgrep line, when it has a valid
file:text format (a line without ':' is a hard error of the loop and
contributes to no successful run). -/
def lineContrib (m : List (String × List String)) (raw : String) : List String :=
  match parse_import_line raw with
  | .ok pr => resolveImport m pr.2
  | .error _ => []

/-- A one-entry catalog used to exercise the pipeline on concrete data. -/
def sampleCatalog : FeaturesFile :=
  { namespace_map := ["Windows.Win32.Devices.Display"]
    feature_map := ["Win32_Devices_Display"]
    namespaces :=
      [("0", [{ name := "DisplayConfigGetDeviceInfo", features := some [0] }])] }

/-- The index built from sampleCatalog. -/
def sampleIndex : List (String × List String) :=
  [("Windows.Win32.Devices.Display.DisplayConfigGetDeviceInfo",
    ["Win32_Devices_Display"])]

/-- A catalog whose namespaces key is not parseable as an unsigned integer. -/
def badCatalog : FeaturesFile :=
  { namespace_map := ["NS"]
    feature_map := ["F"]
    namespaces := [("abc", [{ name := "Item", features := some [0] }])] }

/-- A catalog whose namespaces key parses but is out of range. -/
def oorCatalog : FeaturesFile :=
  { namespace_map := ["NS"]
    feature_map := ["F"]
    namespaces := [("5", [{ name := "Item", features := some [0] }])] }

/-- A one-entry index for exercising the fallback. -/
def wFixIndex : List (String × List String) :=
  [("Windows.Real.Namespace.Foo", ["X"])]

/-- A two-entry index in which two keys share the item-name suffix Foo up
to ASCII case. -/
def wTieIndex : List (String × List String) :=
  [("Windows.A.Foo", ["f1"]), ("Windows.B.foo", ["f2"])]

/-- A two-entry index for exercising aggregation. -/
def wAggIndex : List (String × List String) :=
  [("Windows.A.X", ["fa"]), ("Windows.B.Y", ["fb"])]

/-! ### Generic helper lemmas -/

theorem string_mk_data (s : String) : String.mk s.data = s := by
  cases s; rfl

theorem string_data_inj {a b : String} (h : a.data = b.data) : a = b :=
  String.ext h

theorem foldl_preserve {α β : Type} (P : β → Prop) (f : β → α → β)
    (hf : ∀ b a, P b → P (f b a)) :
    ∀ (l : List α) (b : β), P b → P (List.foldl f b l) := by
  intro l
  induction l with
  | nil => intro b hb; exact hb
  | cons a l ih => intro b hb; exact ih _ (hf b a hb)

theorem mem_of_getLast?_eq {α : Type} {l : List α} {a : α}
    (h : l.getLast? = some a) : a ∈ l := by
  cases l with
  | nil => simp at h
  | cons b bs =>
    have hne : b :: bs ≠ [] := List.cons_ne_nil b bs
    rw [List.getLast?_eq_getLast _ hne] at h
    rw [← Option.some_inj.mp h]
    exact List.getLast_mem hne

theorem getLast?_isSome_of_ne_nil {α : Type} {l : List α} (h : l ≠ []) :
    ∃ a, l.getLast? = some a :=
  ⟨l.getLast h, List.getLast?_eq_getLast l h⟩

theorem mem_insertStr {a x : String} {l : List String} :
    a ∈ insertStr x l ↔ a = x ∨ a ∈ l := by
  induction l with
  | nil => simp [insertStr]
  | cons y ys ih =>
    simp only [insertStr]
    by_cases h1 : x.data < y.data
    · rw [if_pos h1]; simp
    · rw [if_neg h1]
      by_cases h2 : x = y
      · rw [if_pos h2]; subst h2; simp [List.mem_cons]
      · rw [if_neg h2]; simp [List.mem_cons, ih]; tauto

theorem insertStr_ne_nil (x : String) (l : List String) : insertStr x l ≠ [] := by
  cases l with
  | nil => simp [insertStr]
  | cons y ys =>
    simp only [insertStr]
    by_cases h1 : x.data < y.data
    · rw [if_pos h1]; simp
    · rw [if_neg h1]
      by_cases h2 : x = y
      · rw [if_pos h2]; simp
      · rw [if_neg h2]; simp

theorem sorted_insertStr {x : String} {l : List String}
    (h : List.Sorted (fun a b : String => a.data < b.data) l) :
    List.Sorted (fun a b : String => a.data < b.data) (insertStr x l) := by
  induction l with
  | nil => simp [insertStr]
  | cons y ys ih =>
    rw [List.sorted_cons] at h
    obtain ⟨hy, hs⟩ := h
    simp only [insertStr]
    by_cases h1 : x.data < y.data
    · rw [if_pos h1, List.sorted_cons]
      refine ⟨?_, List.sorted_cons.mpr ⟨hy, hs⟩⟩
      intro b hb
      rcases List.mem_cons.mp hb with hb | hb
      · subst hb; exact h1
      · exact lt_trans h1 (hy b hb)
    · rw [if_neg h1]
      by_cases h2 : x = y
      · rw [if_pos h2, List.sorted_cons]; exact ⟨hy, hs⟩
      · rw [if_neg h2, List.sorted_cons]
        refine ⟨?_, ih hs⟩
        intro b hb
        rcases mem_insertStr.mp hb with hb | hb
        · subst hb
          exact lt_of_le_of_ne (not_lt.mp h1) fun hd => h2 (string_data_inj hd.symm)
        · exact hy b hb

theorem mem_extendStr {a : String} {xs : List String} :
    ∀ {acc : List String}, a ∈ extendStr acc xs ↔ a ∈ acc ∨ a ∈ xs := by
  induction xs with
  | nil => intro acc; simp [extendStr]
  | cons x xs ih =>
    intro acc
    show a ∈ extendStr (insertStr x acc) xs ↔ _
    rw [ih, mem_insertStr]
    simp [List.mem_cons]
    tauto

theorem sorted_extendStr {xs : List String} :
    ∀ {acc : List String},
      List.Sorted (fun a b : String => a.data < b.data) acc →
      List.Sorted (fun a b : String => a.data < b.data) (extendStr acc xs) := by
  induction xs with
  | nil => intro acc h; exact h
  | cons x xs ih =>
    intro acc h
    exact ih (sorted_insertStr h)

theorem mapGet_mem {m : List (String × List String)} {k : String}
    {fs : List String} (h : mapGet m k = some fs) : (k, fs) ∈ m := by
  induction m with
  | nil => simp [mapGet] at h
  | cons p rest ih =>
    obtain ⟨k2, v⟩ := p
    simp only [mapGet] at h
    by_cases he : k = k2
    · rw [if_pos he] at h
      subst he
      rw [Option.some_inj.mp h]
      exact List.mem_cons_self _ _
    · rw [if_neg he] at h
      exact List.mem_cons_of_mem _ (ih h)

/-! ### Lemmas about split('.') and the item-name suffix -/

theorem splitDot_ne_nil (cs : List Char) : splitDot cs ≠ [] := by
  cases cs with
  | nil => simp [splitDot]
  | cons c rest =>
    simp only [splitDot]
    by_cases h : c = '.'
    · rw [if_pos h]; simp
    · rw [if_neg h]
      cases hr : splitDot rest <;> simp

theorem splitDot_no_dot {cs : List Char} (h : '.' ∉ cs) : splitDot cs = [cs] := by
  induction cs with
  | nil => rfl
  | cons c rest ih =>
    simp only [splitDot]
    have hc : ¬ c = '.' := fun he => h (he ▸ List.mem_cons_self c rest)
    rw [if_neg hc, ih (fun hm => h (List.mem_cons_of_mem c hm))]

theorem splitDot_parts_no_dot {cs : List Char} {p : List Char}
    (hp : p ∈ splitDot cs) : '.' ∉ p := by
  induction cs generalizing p with
  | nil =>
    simp [splitDot] at hp
    subst hp; simp
  | cons c rest ih =>
    simp only [splitDot] at hp
    by_cases h : c = '.'
    · rw [if_pos h] at hp
      rcases List.mem_cons.mp hp with hp | hp
      · subst hp; simp
      · exact ih hp
    · rw [if_neg h] at hp
      cases hr : splitDot rest with
      | nil => exact absurd hr (splitDot_ne_nil rest)
      | cons q qs =>
        rw [hr] at hp
        rcases List.mem_cons.mp hp with hp | hp
        · subst hp
          intro hm
          rcases List.mem_cons.mp hm with hm | hm
          · exact h hm.symm
          · exact ih (hr ▸ List.mem_cons_self q qs) hm
        · exact ih (hr ▸ List.mem_cons_of_mem q hp)

theorem splitDot_append (xs ys : List Char) :
    splitDot (xs ++ '.' :: ys) = splitDot xs ++ splitDot ys := by
  induction xs with
  | nil => simp [splitDot]
  | cons c xs ih =>
    by_cases h : c = '.'
    · subst h
      simp only [List.cons_append, splitDot, if_pos, List.append_eq]
      rw [ih]
    · simp only [List.cons_append, splitDot, if_neg h, List.append_eq]
      rw [ih]
      cases hx : splitDot xs with
      | nil => exact absurd hx (splitDot_ne_nil xs)
      | cons q qs => simp [List.cons_append]

theorem lastDotSeg_isSome (s : String) : ∃ t, lastDotSeg s = some t := by
  obtain ⟨a, ha⟩ := getLast?_isSome_of_ne_nil (splitDot_ne_nil s.data)
  exact ⟨String.mk a, by simp [lastDotSeg, ha]⟩

theorem lastDotSeg_no_dot {s t : String} (h : lastDotSeg s = some t) :
    '.' ∉ t.data := by
  cases hg : (splitDot s.data).getLast? with
  | none => simp [lastDotSeg, hg] at h
  | some a =>
    simp only [lastDotSeg, hg, Option.map_some'] at h
    rw [← Option.some_inj.mp h]
    exact splitDot_parts_no_dot (mem_of_getLast?_eq hg)

theorem lastDotSeg_append {item : String} (ns : String) (h : '.' ∉ item.data) :
    lastDotSeg (ns ++ "." ++ item) = some item := by
  have hd : (ns ++ "." ++ item).data = ns.data ++ '.' :: item.data := by
    rw [String.data_append, String.data_append]
    simp
  rw [lastDotSeg, hd, splitDot_append, List.getLast?_append, splitDot_no_dot h]
  simp [string_mk_data]

/-! ### Lemmas about ASCII case folding -/

theorem char_toNat_ofNat {n : Nat} (h : Nat.isValidChar n) :
    (Char.ofNat n).toNat = n := by
  simp only [Char.ofNat, h, dif_pos]
  rfl

theorem asciiLower_eq_dot {c : Char} (h : asciiLower c = '.') : c = '.' := by
  by_cases hr : 'A' ≤ c ∧ c ≤ 'Z'
  · exfalso
    rw [asciiLower, if_pos hr] at h
    have h65 : 'A'.toNat ≤ c.toNat := hr.1
    have h90 : c.toNat ≤ 'Z'.toNat := hr.2
    have hA : 'A'.toNat = 65 := rfl
    have hZ : 'Z'.toNat = 90 := rfl
    rw [hA] at h65
    rw [hZ] at h90
    have hv : Nat.isValidChar (c.toNat + 32) := Or.inl (by omega)
    have h2 := congrArg Char.toNat h
    rw [char_toNat_ofNat hv] at h2
    have hdot : ('.' : Char).toNat = 46 := rfl
    rw [hdot] at h2
    omega
  · rw [asciiLower, if_neg hr] at h
    exact h

theorem eqIgnore_no_dot {s t : String} (he : eqIgnoreAsciiCase s t = true)
    (hs : '.' ∉ s.data) : '.' ∉ t.data := by
  intro ht
  simp only [eqIgnoreAsciiCase, beq_iff_eq] at he
  have h1 : asciiLower '.' ∈ t.data.map asciiLower := List.mem_map_of_mem _ ht
  rw [← he] at h1
  obtain ⟨c, hc, hac⟩ := List.mem_map.mp h1
  have hdot : asciiLower '.' = '.' := by decide
  rw [hdot] at hac
  exact hs (asciiLower_eq_dot hac ▸ hc)

/-! ### Value invariants of the index build -/

theorem mapInsertFeature_vals {k v : String} {m : List (String × List String)}
    (h : ∀ p ∈ m, p.2 ≠ []) : ∀ p ∈ mapInsertFeature k v m, p.2 ≠ [] := by
  induction m with
  | nil =>
    intro p hp
    simp [mapInsertFeature] at hp
    subst hp; simp
  | cons q rest ih =>
    obtain ⟨k2, vs⟩ := q
    intro p hp
    simp only [mapInsertFeature] at hp
    by_cases h1 : k.data < k2.data
    · rw [if_pos h1] at hp
      rcases List.mem_cons.mp hp with hp | hp
      · subst hp; simp
      · exact h p hp
    · rw [if_neg h1] at hp
      by_cases h2 : k = k2
      · rw [if_pos h2] at hp
        rcases List.mem_cons.mp hp with hp | hp
        · subst hp; exact insertStr_ne_nil v vs
        · exact h p (List.mem_cons_of_mem _ hp)
      · rw [if_neg h2] at hp
        rcases List.mem_cons.mp hp with hp | hp
        · subst hp; exact h _ (List.mem_cons_self _ _)
        · exact ih (fun q hq => h q (List.mem_cons_of_mem _ hq)) p hp

/-! ### The fallback scan -/

/-- The fallback scan returns the entry of the least matching key when the
keys are iterated in strictly sorted (BTreeMap) order. -/
theorem findFix_min {seg k sk : String} {fs : List String} :
    ∀ {m : List (String × List String)},
      List.Sorted (fun a b : String => a.data < b.data) (m.map Prod.fst) →
      (k, fs) ∈ m →
      lastDotSeg k = some sk →
      eqIgnoreAsciiCase sk seg = true →
      (∀ k2 fs2 s2, (k2, fs2) ∈ m → lastDotSeg k2 = some s2 →
        eqIgnoreAsciiCase s2 seg = true → k.data ≤ k2.data) →
      findFix seg m = some (k, fs) := by
  intro m
  induction m with
  | nil => intro _ hk; simp at hk
  | cons q rest ih =>
    obtain ⟨k0, fs0⟩ := q
    intro hsort hk hseg hmatch hmin
    rw [List.map_cons, List.sorted_cons] at hsort
    obtain ⟨hlt, hsort2⟩ := hsort
    obtain ⟨s0, hs0⟩ := lastDotSeg_isSome k0
    simp only [findFix, hs0]
    by_cases hm : eqIgnoreAsciiCase s0 seg = true
    · rw [if_pos hm]
      have hk0 : k.data ≤ k0.data :=
        hmin k0 fs0 s0 (List.mem_cons_self _ _) hs0 hm
      rcases List.mem_cons.mp hk with hh | hh
      · rw [Prod.mk.injEq] at hh
        rw [hh.1, hh.2]
      · exfalso
        have hmem : k ∈ rest.map Prod.fst :=
          List.mem_map.mpr ⟨(k, fs), hh, rfl⟩
        exact absurd (hlt k hmem) (not_lt.mpr hk0)
    · rw [if_neg hm]
      have hne : k ≠ k0 := by
        intro he
        subst he
        rw [hs0] at hseg
        rw [Option.some_inj.mp hseg] at hm
        exact hm hmatch
      rcases List.mem_cons.mp hk with hh | hh
      · exact absurd (congrArg Prod.fst hh) hne
      · exact ih hsort2 hh hseg hmatch
          (fun k2 fs2 s2 h2 => hmin k2 fs2 s2 (List.mem_cons_of_mem _ h2))

/-! ### Lemmas about the index build -/

theorem processEntry_vals {fm : List String} {ns : String}
    {acc : List (String × List String)} {e : NamespaceEntry}
    (h : ∀ p ∈ acc, p.2 ≠ []) : ∀ p ∈ processEntry fm ns acc e, p.2 ≠ [] := by
  cases hfe : e.features with
  | none => simp only [processEntry, hfe]; exact h
  | some fis =>
    simp only [processEntry, hfe]
    refine foldl_preserve (fun accb => ∀ p ∈ accb, p.2 ≠ []) _ ?_ fis acc h
    intro b a hb
    cases hf : fm[a]? with
    | some fn =>
      simp only [hf]
      exact mapInsertFeature_vals hb
    | none =>
      simp only [hf]
      exact hb

theorem buildGo_vals {nm fm : List String} :
    ∀ {l : List (String × List NamespaceEntry)}
      {acc m : List (String × List String)},
      buildGo nm fm l acc = .ok m → (∀ p ∈ acc, p.2 ≠ []) →
      ∀ p ∈ m, p.2 ≠ [] := by
  intro l
  induction l with
  | nil =>
    intro acc m h hacc
    simp only [buildGo] at h
    rw [← Except.ok.inj h]
    exact hacc
  | cons q rest ih =>
    obtain ⟨idx_str, entries⟩ := q
    intro acc m h hacc
    simp only [buildGo] at h
    cases hp : parseUsize idx_str with
    | none =>
      simp only [hp] at h
      exact Except.noConfusion h
    | some idx =>
      simp only [hp] at h
      cases hn : nm[idx]? with
      | none =>
        simp only [hn] at h
        exact ih h hacc
      | some ns =>
        simp only [hn] at h
        refine ih h ?_
        exact foldl_preserve (fun accb => ∀ p ∈ accb, p.2 ≠ []) _
          (fun b a hb => processEntry_vals hb) entries acc hacc

theorem buildGo_ok_iff {nm fm : List String} :
    ∀ {l : List (String × List NamespaceEntry)}
      {acc : List (String × List String)},
      (∃ m, buildGo nm fm l acc = .ok m) ↔
        ∀ p ∈ l, (parseUsize p.1).isSome = true := by
  intro l
  induction l with
  | nil => intro acc; simp [buildGo]
  | cons q rest ih =>
    obtain ⟨idx_str, entries⟩ := q
    intro acc
    simp only [buildGo, List.forall_mem_cons]
    cases hp : parseUsize idx_str with
    | none => simp [hp]
    | some idx =>
      cases hn : nm[idx]? with
      | none => simp [hp, hn, ih]
      | some ns => simp [hp, hn, ih]

/-! ### Lemmas about the aggregation loop -/

theorem getGo_ok_all {m : List (String × List String)} :
    ∀ {l : List String} {acc s : List String},
      getGo m l acc = .ok s → ∀ i ∈ l, ∃ pr, parse_import_line i = .ok pr := by
  intro l
  induction l with
  | nil => intro acc s _ i hi; simp at hi
  | cons a rest ih =>
    intro acc s h i hi
    simp only [getGo] at h
    cases hp : parse_import_line a with
    | error e =>
      simp only [hp] at h
      exact Except.noConfusion h
    | ok pr =>
      obtain ⟨fp, il⟩ := pr
      simp only [hp] at h
      rcases List.mem_cons.mp hi with hi | hi
      · subst hi; exact ⟨(fp, il), hp⟩
      · exact ih h i hi

theorem getGo_all_ok {m : List (String × List String)} :
    ∀ {l : List String} (acc : List String),
      (∀ i ∈ l, ∃ pr, parse_import_line i = .ok pr) →
      ∃ s, getGo m l acc = .ok s := by
  intro l
  induction l with
  | nil => intro acc _; exact ⟨acc, rfl⟩
  | cons a rest ih =>
    intro acc hall
    obtain ⟨⟨fp, il⟩, hp⟩ := hall a (List.mem_cons_self _ _)
    simp only [getGo, hp]
    exact ih _ (fun i hi => hall i (List.mem_cons_of_mem _ hi))

theorem getGo_mem {m : List (String × List String)} {x : String} :
    ∀ {l : List String} {acc s : List String},
      getGo m l acc = .ok s →
      (x ∈ s ↔ x ∈ acc ∨ ∃ i ∈ l, x ∈ lineContrib m i) := by
  intro l
  induction l with
  | nil =>
    intro acc s h
    rw [← Except.ok.inj h]
    simp
  | cons a rest ih =>
    intro acc s h
    simp only [getGo] at h
    cases hp : parse_import_line a with
    | error e =>
      simp only [hp] at h
      exact Except.noConfusion h
    | ok pr =>
      obtain ⟨fp, il⟩ := pr
      simp only [hp] at h
      rw [ih h, mem_extendStr]
      have hca : lineContrib m a = resolveImport m il := by
        simp [lineContrib, hp]
      rw [List.exists_mem_cons_iff, hca]
      tauto

theorem getGo_sorted {m : List (String × List String)} :
    ∀ {l : List String} {acc s : List String},
      getGo m l acc = .ok s →
      List.Sorted (fun a b : String => a.data < b.data) acc →
      List.Sorted (fun a b : String => a.data < b.data) s := by
  intro l
  induction l with
  | nil =>
    intro acc s h hacc
    rw [← Except.ok.inj h]
    exact hacc
  | cons a rest ih =>
    intro acc s h hacc
    simp only [getGo] at h
    cases hp : parse_import_line a with
    | error e =>
      simp only [hp] at h
      exact Except.noConfusion h
    | ok pr =>
      obtain ⟨fp, il⟩ := pr
      simp only [hp] at h
      exact ih h (sorted_extendStr hacc)

theorem getGo_skip {m : List (String × List String)} {raw fp line : String}
    (hp : parse_import_line raw = .ok (fp, line))
    (hc : resolveImport m line = []) :
    ∀ (pre post : List String) (acc : List String),
      getGo m (pre ++ raw :: post) acc = getGo m (pre ++ post) acc := by
  intro pre
  induction pre with
  | nil =>
    intro post acc
    simp only [List.nil_append, getGo, hp, hc]
    rfl
  | cons p pre ih =>
    intro post acc
    simp only [List.cons_append, getGo]
    cases hq : parse_import_line p with
    | error e => simp [hq]
    | ok pr =>
      obtain ⟨f2, l2⟩ := pr
      simp only [hq]
      exact ih post _

/-! ### The wildcard union -/

theorem wildcard_foldl_mem (pfx x : String) :
    ∀ (m : List (String × List String)) (acc : List String),
      (x ∈ m.foldl (fun acc kf =>
          if strStartsWith kf.1 pfx then extendStr acc kf.2 else acc) acc ↔
        x ∈ acc ∨ ∃ kf, kf ∈ m ∧ strStartsWith kf.1 pfx = true ∧ x ∈ kf.2) := by
  intro m
  induction m with
  | nil => intro acc; simp
  | cons q rest ih =>
    intro acc
    simp only [List.foldl_cons]
    by_cases hq : strStartsWith q.1 pfx = true
    · rw [if_pos hq, ih, mem_extendStr]
      constructor
      · rintro ((h | h) | ⟨kf, hkf, h1, h2⟩)
        · exact Or.inl h
        · exact Or.inr ⟨q, List.mem_cons_self _ _, hq, h⟩
        · exact Or.inr ⟨kf, List.mem_cons_of_mem _ hkf, h1, h2⟩
      · rintro (h | ⟨kf, hkf, h1, h2⟩)
        · exact Or.inl (Or.inl h)
        · rcases List.mem_cons.mp hkf with rfl | hkf
          · exact Or.inl (Or.inr h2)
          · exact Or.inr ⟨kf, hkf, h1, h2⟩
    · rw [if_neg hq, ih]
      constructor
      · rintro (h | ⟨kf, hkf, h1, h2⟩)
        · exact Or.inl h
        · exact Or.inr ⟨kf, List.mem_cons_of_mem _ hkf, h1, h2⟩
      · rintro (h | ⟨kf, hkf, h1, h2⟩)
        · exact Or.inl h
        · rcases List.mem_cons.mp hkf with rfl | hkf
          · exact absurd h1 hq
          · exact Or.inr ⟨kf, hkf, h1, h2⟩

/-! ### Lemmas about terminator and whitespace stripping -/

theorem mem_of_head?_eq {α : Type} {l : List α} {a : α}
    (h : l.head? = some a) : a ∈ l := by
  cases l with
  | nil => simp at h
  | cons b bs =>
    rw [← Option.some_inj.mp h]
    exact List.mem_cons_self _ _

theorem rustIsWhitespace_ne_semi {c : Char} (h : rustIsWhitespace c = true) :
    (c == ';') = false := by
  cases hb : (c == ';') with
  | false => rfl
  | true =>
    exfalso
    have hc : c = ';' := by simpa using hb
    subst hc
    exact absurd h (by decide)

theorem dropWhile_eq_self_of_head {p : Char → Bool} :
    ∀ {l : List Char}, (∀ c, l.head? = some c → p c = false) →
      l.dropWhile p = l := by
  intro l h
  cases l with
  | nil => rfl
  | cons a as =>
    rw [List.dropWhile_cons, if_neg (by simp [h a rfl])]

theorem dropWhile_append_of_all {p : Char → Bool} {a : List Char}
    (h : ∀ c ∈ a, p c = true) (b : List Char) :
    List.dropWhile p (a ++ b) = List.dropWhile p b := by
  rw [List.dropWhile_append,
    if_pos (by rw [List.isEmpty_iff]; exact List.dropWhile_eq_nil_iff.mpr h)]

theorem trimEndSemis_of_last {X : String}
    (hX : ∀ c, X.data.getLast? = some c → (c == ';') = false) :
    trimEndSemis X = X := by
  unfold trimEndSemis
  rw [dropWhile_eq_self_of_head
      (fun c hc => hX c (by rwa [List.head?_reverse] at hc)),
    List.reverse_reverse, string_mk_data]

theorem trimEndSemis_append_ws {X ws : String}
    (hws : ∀ c ∈ ws.data, rustIsWhitespace c = true)
    (hX : ∀ c, X.data.getLast? = some c → (c == ';') = false) :
    trimEndSemis (X ++ ws ++ ";") = String.mk (X.data ++ ws.data) := by
  unfold trimEndSemis
  have hd : (X ++ ws ++ ";").data = (X.data ++ ws.data) ++ [';'] := by
    rw [String.data_append, String.data_append]
  rw [hd, List.reverse_append]
  have h1 : ([';'] : List Char).reverse = [';'] := rfl
  rw [h1, List.singleton_append]
  have h2 : List.dropWhile (fun c => c == ';')
      (';' :: (X.data ++ ws.data).reverse) =
      List.dropWhile (fun c => c == ';') ((X.data ++ ws.data).reverse) := by
    simp [List.dropWhile_cons]
  rw [h2]
  have hhead : ∀ c, ((X.data ++ ws.data).reverse).head? = some c →
      ((c == ';') = false) := by
    intro c hc
    rw [List.reverse_append, List.head?_append] at hc
    cases hw : ws.data.reverse.head? with
    | some cw =>
      rw [hw] at hc
      simp only [Option.or] at hc
      have hcw : c ∈ ws.data := by
        rw [← List.mem_reverse]
        exact mem_of_head?_eq (hw.trans hc)
      exact rustIsWhitespace_ne_semi (hws c hcw)
    | none =>
      rw [hw] at hc
      simp only [Option.or] at hc
      rw [List.head?_reverse] at hc
      exact hX c hc
  rw [dropWhile_eq_self_of_head hhead, List.reverse_reverse]

theorem rustTrim_append_ws {xs wsl : List Char}
    (hws : ∀ c ∈ wsl, rustIsWhitespace c = true)
    (hx : ∀ c, xs.getLast? = some c → rustIsWhitespace c = false) :
    rustTrim (String.mk (xs ++ wsl)) = rustTrim (String.mk xs) := by
  unfold rustTrim
  by_cases hE : xs.dropWhile rustIsWhitespace = []
  · have hxnil : xs = [] := by
      cases hxs : xs with
      | nil => rfl
      | cons a as =>
        exfalso
        obtain ⟨c, hc⟩ :=
          getLast?_isSome_of_ne_nil (l := xs) (by rw [hxs]; simp)
        have hcw : rustIsWhitespace c = true :=
          List.dropWhile_eq_nil_iff.mp hE c (mem_of_getLast?_eq hc)
        rw [hx c hc] at hcw
        exact Bool.noConfusion hcw
    subst hxnil
    have hwnil : wsl.dropWhile rustIsWhitespace = [] :=
      List.dropWhile_eq_nil_iff.mpr hws
    show String.mk (((([] ++ wsl).dropWhile
        rustIsWhitespace).reverse.dropWhile rustIsWhitespace).reverse) = _
    rw [List.nil_append, hwnil]
    rfl
  · show String.mk ((((xs ++ wsl).dropWhile
        rustIsWhitespace).reverse.dropWhile rustIsWhitespace).reverse) = _
    rw [List.dropWhile_append, if_neg (by rw [List.isEmpty_iff]; exact hE),
      List.reverse_append,
      dropWhile_append_of_all (fun c hc => hws c (List.mem_reverse.mp hc))]

theorem parse_trim_congr {a b : String}
    (h : rustTrim (trimEndSemis a) = rustTrim (trimEndSemis b)) :
    parse_namespace_and_item a = parse_namespace_and_item b := by
  unfold parse_namespace_and_item importTokens
  rw [h]

/-! ### Resolver branch helpers -/

theorem resolve_specific_hit {m : List (String × List String)}
    {ns item : String} {fs : List String}
    (h : mapGet m (ns ++ "." ++ item) = some fs) :
    resolve_reference m (ns, some item) = fs := by
  simp only [resolve_reference, h]

theorem resolve_specific_fallback {m : List (String × List String)}
    {ns item : String} {fs : List String}
    (hmiss : mapGet m (ns ++ "." ++ item) = none)
    (hfix : attempt_fix_import m (ns ++ "." ++ item) = some fs) :
    resolve_reference m (ns, some item) = fs := by
  simp only [resolve_reference, hmiss, hfix]

theorem processEntry_foldl_oor {fm : List String} {fn : String} :
    ∀ (fis : List Nat) (acc : List (String × List String)),
      (∀ fi ∈ fis, fm[fi]? = none) →
      fis.foldl (fun acc2 fi =>
        match fm[fi]? with
        | some feature_name => mapInsertFeature fn feature_name acc2
        | none => acc2) acc = acc := by
  intro fis
  induction fis with
  | nil => intro acc _; rfl
  | cons a as ih =>
    intro acc hoor
    rw [List.foldl_cons]
    simp only [hoor a (List.mem_cons_self _ _)]
    exact ih acc (fun fi hfi => hoor fi (List.mem_cons_of_mem _ hfi))

/-! ### The claims -/

/-- Claim C1: end-to-end exact-match correctness.  For any index that maps
the qualified key Windows.Win32.Devices.Display.DisplayConfigGetDeviceInfo
to the feature set containing exactly Win32_Devices_Display, parsing the
raw import line yields the specific-item reference with that namespace and
item, and resolving that line returns exactly that feature set. -/
theorem c1_exact_match (m : List (String × List String))
    (h : mapGet m "Windows.Win32.Devices.Display.DisplayConfigGetDeviceInfo" =
      some ["Win32_Devices_Display"]) :
    parse_namespace_and_item
        "windows::Win32::Devices::Display::DisplayConfigGetDeviceInfo;" =
      some ("Windows.Win32.Devices.Display",
        some "DisplayConfigGetDeviceInfo") ∧
    resolveImport m
        "windows::Win32::Devices::Display::DisplayConfigGetDeviceInfo;" =
      ["Win32_Devices_Display"] := by
  have hp : parse_namespace_and_item
      "windows::Win32::Devices::Display::DisplayConfigGetDeviceInfo;" =
      some ("Windows.Win32.Devices.Display",
        some "DisplayConfigGetDeviceInfo") := by decide
  refine ⟨hp, ?_⟩
  have hfull : ("Windows.Win32.Devices.Display" ++ "." ++
      "DisplayConfigGetDeviceInfo" : String) =
      "Windows.Win32.Devices.Display.DisplayConfigGetDeviceInfo" := rfl
  rw [← hfull] at h
  simp only [resolveImport, hp]
  exact resolve_specific_hit h

/-- Witness for C1: the hypothesis is satisfied by the index built from the
concrete one-entry catalog. -/
theorem c1_exact_match_witness :
    build_feature_mappings sampleCatalog = .ok sampleIndex ∧
    resolveImport sampleIndex
        "windows::Win32::Devices::Display::DisplayConfigGetDeviceInfo;" =
      ["Win32_Devices_Display"] :=
  ⟨rfl, (c1_exact_match sampleIndex rfl).2⟩

/-- Claim C2: fallback correction by item name.  If the qualified key of a
specific-item reference is absent from the index and exactly one indexed
key has an item-name suffix equal to the referenced item name under
case-insensitive comparison, then resolving the reference returns that
key's feature set; moreover the fallback locates exactly that corrected
key (the source formats its corrective warn! diagnostic, src/main.rs
325-328, from the original qualified name together with this matched
key). -/
theorem c2_fallback_correction (m : List (String × List String))
    (ns item k sk : String) (fs : List String)
    (hwf : IndexWF m)
    (hmiss : mapGet m (ns ++ "." ++ item) = none)
    (hk : (k, fs) ∈ m)
    (hks : lastDotSeg k = some sk)
    (hmatch : eqIgnoreAsciiCase sk item = true)
    (huniq : ∀ k2 fs2 s2, (k2, fs2) ∈ m → lastDotSeg k2 = some s2 →
      eqIgnoreAsciiCase s2 item = true → k2 = k) :
    resolve_reference m (ns, some item) = fs ∧
    attempt_fix_entry m (ns ++ "." ++ item) = some (k, fs) := by
  have hnd : '.' ∉ item.data :=
    eqIgnore_no_dot hmatch (lastDotSeg_no_dot hks)
  have hfull : lastDotSeg (ns ++ "." ++ item) = some item :=
    lastDotSeg_append ns hnd
  have hentry : attempt_fix_entry m (ns ++ "." ++ item) = some (k, fs) := by
    simp only [attempt_fix_entry, hfull]
    refine findFix_min hwf hk hks hmatch ?_
    intro k2 fs2 s2 h2 hs2 hm2
    rw [huniq k2 fs2 s2 h2 hs2 hm2]
  have hfix : attempt_fix_import m (ns ++ "." ++ item) = some fs := by
    simp [attempt_fix_import, hentry]
  exact ⟨resolve_specific_fallback hmiss hfix, hentry⟩

/-- Witness for C2: an item Foo referenced under the wrong namespace is
resolved from the unique key Windows.Real.Namespace.Foo. -/
theorem c2_fallback_correction_witness :
    resolve_reference wFixIndex ("Windows.Wrong.Namespace", some "Foo") =
      ["X"] ∧
    attempt_fix_entry wFixIndex ("Windows.Wrong.Namespace" ++ "." ++ "Foo") =
      some ("Windows.Real.Namespace.Foo", ["X"]) :=
  c2_fallback_correction wFixIndex "Windows.Wrong.Namespace" "Foo"
    "Windows.Real.Namespace.Foo" "Foo" ["X"]
    (by simp [IndexWF, wFixIndex])
    (by decide)
    (by simp [wFixIndex])
    (by decide)
    (by decide)
    (by
      intro k2 fs2 s2 h2 _ _
      simp only [wFixIndex, List.mem_singleton] at h2
      exact congrArg Prod.fst h2)

/-- Claim C3: wildcard resolution respects namespace component boundaries.
For every index and wildcard reference with namespace path P, a feature is
in the result exactly when some indexed key beginning with P followed by
'.' carries it; and a key under namespace Foo.Bar never begins with
Foo.Ba followed by '.', so it is never included for a wildcard query on
Foo.Ba. -/
theorem c3_wildcard_boundary (m : List (String × List String)) (P : String) :
    (∀ x, x ∈ resolve_reference m (P, none) ↔
      ∃ kf, kf ∈ m ∧ strStartsWith kf.1 (P ++ ".") = true ∧ x ∈ kf.2) ∧
    (∀ item : String,
      strStartsWith ("Foo.Bar." ++ item) ("Foo.Ba" ++ ".") = false) := by
  constructor
  · intro x
    simp only [resolve_reference]
    rw [wildcard_foldl_mem (P ++ ".") x m []]
    simp
  · intro item
    show listIsPre ("Foo.Ba" ++ ".").data ("Foo.Bar." ++ item).data = false
    have h1 : (("Foo.Ba" ++ "." : String)).data =
        ['F', 'o', 'o', '.', 'B', 'a', '.'] := rfl
    have h2 : (("Foo.Bar." ++ item : String)).data =
        'F' :: 'o' :: 'o' :: '.' :: 'B' :: 'a' :: 'r' :: '.' :: item.data := by
      rw [String.data_append]
      rfl
    rw [h1, h2]
    simp [listIsPre]

/-- Counterexample to C4 as stated: a namespaces key that is not parseable
as an unsigned integer makes the index build abort with an error instead
of skipping the entry (src/main.rs line 218 applies the ? operator to the
parse result). -/
theorem c4_counterexample :
    build_feature_mappings badCatalog = .error "Invalid namespace index" := rfl

/-- Claim C4 (amended): building the index succeeds exactly when every
namespaces key parses as an unsigned integer — a key that is out of range
for namespace_map is skipped with a warning and the build continues, but a
key that fails to parse aborts the build with an error. -/
theorem c4_malformation_amended (features : FeaturesFile) :
    ((∃ m, build_feature_mappings features = .ok m) ↔
      ∀ p ∈ features.namespaces, (parseUsize p.1).isSome = true) ∧
    (∀ (nm fm : List String) (idx_str : String) (idx : Nat)
      (entries : List NamespaceEntry)
      (rest : List (String × List NamespaceEntry))
      (acc : List (String × List String)),
      parseUsize idx_str = some idx → nm[idx]? = none →
      buildGo nm fm ((idx_str, entries) :: rest) acc =
        buildGo nm fm rest acc) := by
  constructor
  · exact buildGo_ok_iff
  · intro nm fm idx_str idx entries rest acc hp hn
    simp only [buildGo, hp, hn]

/-- Witness for C4 (amended): a catalog whose only key is out of range
still builds, and the out-of-range entry is skipped. -/
theorem c4_malformation_amended_witness :
    (∃ m, build_feature_mappings oorCatalog = .ok m) ∧
    buildGo ["NS"] ["F"] [("5", [⟨"Item", some [0]⟩])] [] =
      buildGo ["NS"] ["F"] [] [] :=
  ⟨(c4_malformation_amended oorCatalog).1.mpr (by decide),
   (c4_malformation_amended oorCatalog).2 ["NS"] ["F"] "5" 5
     [⟨"Item", some [0]⟩] [] [] rfl rfl⟩

/-- Claim C5: malformed import lines are skipped, not fatal.  A line whose
cleaned text splits on the :: delimiter into fewer than 3 tokens parses to
none, and the aggregation loop over a sequence containing such a line (in
valid file:text format) produces the same result as the loop without it. -/
theorem c5_malformed_skip (m : List (String × List String)) (line : String)
    (h3 : (importTokens line).length < 3) :
    parse_namespace_and_item line = none ∧
    ∀ (pre post : List String) (raw fp : String),
      parse_import_line raw = .ok (fp, line) →
      get_required_features m (pre ++ raw :: post) =
        get_required_features m (pre ++ post) := by
  have hp : parse_namespace_and_item line = none := by
    simp only [parse_namespace_and_item]
    rw [if_pos h3]
  refine ⟨hp, ?_⟩
  intro pre post raw fp hraw
  unfold get_required_features
  exact getGo_skip hraw (by simp [resolveImport, hp]) pre post []

/-- Witness for C5: the import text of use windows has a single token, and
dropping the corresponding ripgrep line from an aggregation changes
nothing. -/
theorem c5_malformed_skip_witness :
    (importTokens "use windows").length < 3 ∧
    parse_namespace_and_item "use windows" = none ∧
    get_required_features wAggIndex
        ["a.rs:use windows::A::X;", "b.rs:use windows", "c.rs:use windows::B::Y;"] =
      get_required_features wAggIndex
        ["a.rs:use windows::A::X;", "c.rs:use windows::B::Y;"] :=
  ⟨by decide,
   (c5_malformed_skip wAggIndex "use windows" (by decide)).1,
   (c5_malformed_skip wAggIndex "use windows" (by decide)).2
     ["a.rs:use windows::A::X;"] ["c.rs:use windows::B::Y;"]
     "b.rs:use windows" "b.rs" rfl⟩

/-- Claim C6: namespace path reconstruction.  When the cleaned import line
splits into at least 3 tokens, the parsed namespace path is the fixed root
label Windows, a '.', and tokens 2 through n-1 joined with '.'; the final
token becomes the item name, or the wildcard marker when it equals *. -/
theorem c6_namespace_reconstruction (line : String) (parts : List String)
    (hp : parts = importTokens line) (h3 : 3 ≤ parts.length)
    (last : String) (hl : parts.getLast? = some last) :
    parse_namespace_and_item line =
      some ("Windows." ++ joinDot ((parts.drop 1).dropLast),
        if last = "*" then none else some last) := by
  subst hp
  simp only [parse_namespace_and_item]
  rw [if_neg (by omega)]
  simp only [hl]
  by_cases hw : last = "*"
  · simp [hw]
  · simp [hw]

/-- Witness for C6: a concrete four-token line. -/
theorem c6_namespace_reconstruction_witness :
    3 ≤ (importTokens "use windows::Win32::UI::Shell::Foo;").length ∧
    parse_namespace_and_item "use windows::Win32::UI::Shell::Foo;" =
      some ("Windows." ++ joinDot
          (((importTokens "use windows::Win32::UI::Shell::Foo;").drop 1).dropLast),
        if "Foo" = "*" then none else some "Foo") :=
  ⟨by decide,
   c6_namespace_reconstruction "use windows::Win32::UI::Shell::Foo;" _ rfl
     (by decide) "Foo" (by decide)⟩

/-- Claim C7: order-independence of aggregation.  For every index and every
sequence of raw ripgrep lines, any permutation of a successfully aggregated
sequence aggregates to the same final feature set. -/
theorem c7_order_independence (m : List (String × List String))
    (l l2 : List String) (s : List String)
    (hperm : List.Perm l l2)
    (h : get_required_features m l = .ok s) :
    get_required_features m l2 = .ok s := by
  have hall : ∀ i ∈ l, ∃ pr, parse_import_line i = .ok pr := getGo_ok_all h
  have hall2 : ∀ i ∈ l2, ∃ pr, parse_import_line i = .ok pr :=
    fun i hi => hall i (hperm.mem_iff.mpr hi)
  obtain ⟨s2, hs2⟩ := getGo_all_ok (m := m) [] hall2
  have hsort : List.Sorted (fun a b : String => a.data < b.data) s :=
    getGo_sorted h (by simp)
  have hsort2 : List.Sorted (fun a b : String => a.data < b.data) s2 :=
    getGo_sorted hs2 (by simp)
  have hmem : ∀ x, x ∈ s ↔ x ∈ s2 := by
    intro x
    rw [getGo_mem h, getGo_mem hs2]
    simp only [List.not_mem_nil, false_or]
    constructor
    · rintro ⟨i, hi, hx⟩
      exact ⟨i, hperm.mem_iff.mp hi, hx⟩
    · rintro ⟨i, hi, hx⟩
      exact ⟨i, hperm.mem_iff.mpr hi, hx⟩
  haveI ha : IsAntisymm String (fun a b : String => a.data < b.data) :=
    ⟨fun a b h1 h2 => absurd h2 (lt_asymm h1)⟩
  haveI hirr : IsIrrefl String (fun a b : String => a.data < b.data) :=
    ⟨fun a h1 => lt_irrefl _ h1⟩
  have hp : List.Perm s s2 :=
    (List.perm_ext_iff_of_nodup hsort.nodup hsort2.nodup).mpr hmem
  unfold get_required_features
  rw [hs2, List.eq_of_perm_of_sorted hp hsort hsort2]

/-- Witness for C7: swapping two concrete ripgrep lines leaves the final
feature set unchanged. -/
theorem c7_order_independence_witness :
    List.Perm ["a.rs:use windows::A::X;", "b.rs:use windows::B::Y;"]
      ["b.rs:use windows::B::Y;", "a.rs:use windows::A::X;"] ∧
    get_required_features wAggIndex
      ["a.rs:use windows::A::X;", "b.rs:use windows::B::Y;"] =
        .ok ["fa", "fb"] ∧
    get_required_features wAggIndex
      ["b.rs:use windows::B::Y;", "a.rs:use windows::A::X;"] =
        .ok ["fa", "fb"] :=
  ⟨by decide, rfl,
   c7_order_independence wAggIndex
     ["a.rs:use windows::A::X;", "b.rs:use windows::B::Y;"]
     ["b.rs:use windows::B::Y;", "a.rs:use windows::A::X;"]
     ["fa", "fb"] (by decide) rfl⟩

/-- Counterexample to C8 as stated: whitespace after the terminator is not
stripped — the terminator is stripped before whitespace trimming
(src/main.rs line 290), so a trailing "; " leaves the ';' inside the
parsed item name. -/
theorem c8_counterexample :
    parse_namespace_and_item "windows::Win32::Foo; " =
      some ("Windows.Win32", some "Foo;") ∧
    parse_namespace_and_item "windows::Win32::Foo" =
      some ("Windows.Win32", some "Foo") := by
  exact ⟨by decide, by decide⟩

/-- Claim C8 (amended): terminator and whitespace stripping.  For an import
text X that ends in neither whitespace nor the terminator, parsing X
followed by any whitespace and then the terminator ';' equals parsing X
alone.  Whitespace after the terminator, however, is not covered: the code
strips trailing ';' characters before trimming whitespace, so a terminator
followed by whitespace survives into the final token. -/
theorem c8_terminator_strip (X ws : String)
    (hws : ∀ c ∈ ws.data, rustIsWhitespace c = true)
    (hX : ∀ c, X.data.getLast? = some c → c ≠ ';' ∧ rustIsWhitespace c = false) :
    parse_namespace_and_item (X ++ ws ++ ";") = parse_namespace_and_item X := by
  apply parse_trim_congr
  have hXs : ∀ c, X.data.getLast? = some c → (c == ';') = false := by
    intro c hc
    exact beq_eq_false_iff_ne.mpr (hX c hc).1
  rw [trimEndSemis_append_ws hws hXs, trimEndSemis_of_last hXs,
    rustTrim_append_ws hws (fun c hc => (hX c hc).2), string_mk_data]

/-- Witness for C8 (amended): two spaces between the import text and the
terminator are stripped together with the terminator. -/
theorem c8_terminator_strip_witness :
    (∀ c ∈ ("  " : String).data, rustIsWhitespace c = true) ∧
    parse_namespace_and_item ("windows::Win32::Foo" ++ "  " ++ ";") =
      parse_namespace_and_item "windows::Win32::Foo" :=
  ⟨by decide,
   c8_terminator_strip "windows::Win32::Foo" "  " (by decide)
     (by
       intro c hc
       have h2 : ("windows::Win32::Foo" : String).data.getLast? = some 'o' :=
         rfl
       have hco : c = 'o' := Option.some_inj.mp (hc.symm.trans h2)
       subst hco
       exact ⟨by decide, by decide⟩)⟩

/-- Claim C9: deterministic fallback tie-break.  The fallback is a pure
function of the index and the name, and for an index in sorted (BTreeMap)
iteration order it returns the feature set of the matching qualified key
that is lexicographically least among all matching keys — in particular
whenever several keys match. -/
theorem c9_fallback_tiebreak (m : List (String × List String))
    (full_name k seg sk : String) (fs : List String)
    (hwf : IndexWF m)
    (hseg : lastDotSeg full_name = some seg)
    (hk : (k, fs) ∈ m)
    (hks : lastDotSeg k = some sk)
    (hmatch : eqIgnoreAsciiCase sk seg = true)
    (hmin : ∀ k2 fs2 s2, (k2, fs2) ∈ m → lastDotSeg k2 = some s2 →
      eqIgnoreAsciiCase s2 seg = true → k.data ≤ k2.data) :
    attempt_fix_import m full_name = some fs := by
  simp only [attempt_fix_import, attempt_fix_entry, hseg]
  rw [findFix_min hwf hk hks hmatch hmin]
  rfl

/-- Witness for C9: two keys match the referenced name Foo up to ASCII
case; the fallback returns the feature set of the lexicographically
smaller one. -/
theorem c9_fallback_tiebreak_witness :
    attempt_fix_import wTieIndex "Windows.Wrong.Foo" = some ["f1"] :=
  c9_fallback_tiebreak wTieIndex "Windows.Wrong.Foo" "Windows.A.Foo"
    "Foo" "Foo" ["f1"]
    (by simp [IndexWF, wTieIndex]; decide)
    (by decide)
    (by simp [wTieIndex])
    (by decide)
    (by decide)
    (by
      intro k2 fs2 s2 h2 _ _
      simp only [wTieIndex, List.mem_cons, List.mem_singleton,
        List.not_mem_nil, or_false] at h2
      rcases h2 with h2 | h2 <;>
        (rw [Prod.mk.injEq] at h2; rw [h2.1]) <;> decide)

/-- Claim C10: non-empty index invariant.  Every qualified key present in a
successfully built index maps to a non-empty feature set, because a
catalog entry whose feature list is absent, empty, or entirely
out-of-range inserts nothing into the index. -/
theorem c10_nonempty_values (features : FeaturesFile)
    (m : List (String × List String))
    (h : build_feature_mappings features = .ok m) :
    (∀ k fs, mapGet m k = some fs → fs ≠ []) ∧
    (∀ (ns : String) (acc : List (String × List String)) (e : NamespaceEntry),
      e.features = none ∨ e.features = some [] ∨
        (∃ fis, e.features = some fis ∧
          ∀ fi ∈ fis, features.feature_map[fi]? = none) →
      processEntry features.feature_map ns acc e = acc) := by
  constructor
  · intro k fs hget
    have hvals : ∀ p ∈ m, p.2 ≠ [] := buildGo_vals h (by simp)
    exact hvals (k, fs) (mapGet_mem hget)
  · rintro ns acc e (he | he | ⟨fis, he, hoor⟩)
    · simp [processEntry, he]
    · simp [processEntry, he]
    · simp only [processEntry, he]
      exact processEntry_foldl_oor fis acc hoor

/-- Witness for C10: the only key of the index built from the sample
catalog has a non-empty feature set, and an entry with an absent feature
list inserts nothing. -/
theorem c10_nonempty_values_witness :
    (["Win32_Devices_Display"] : List String) ≠ [] ∧
    processEntry sampleCatalog.feature_map "NS" []
      ⟨"Item", none⟩ = [] :=
  ⟨(c10_nonempty_values sampleCatalog sampleIndex rfl).1
      "Windows.Win32.Devices.Display.DisplayConfigGetDeviceInfo"
      ["Win32_Devices_Display"] rfl,
   (c10_nonempty_values sampleCatalog sampleIndex rfl).2 "NS" []
      ⟨"Item", none⟩ (Or.inl rfl)⟩
